import Mathlib

/-!
Verification of the core of the volta toolchain manager against its
natural-language specification.  The development shallowly embeds three
Rust modules:

* crates/volta-fail/src/lib.rs — the unified failure and exit-code protocol
  (the VoltaError root type, the with_context wrapping combinator and the
  ExitCode enumeration);
* crates/notion-core/src/shim.rs — the shim lifecycle manager (create and
  delete of filesystem redirect entries), modelled against an explicit
  environment of filesystem collaborators together with a log of the
  filesystem events performed;
* crates/notion-core/src/serial/catalog.rs — the catalog serialization
  layer, together with a model of the external semver library (Version
  values, their parsing, rendering and precedence order) and of the
  BTreeSet container used for the ordered, deduplicated version set.
-/

/-! ## The unified failure and exit-code protocol (volta-fail) -/

/-- Exit codes supported by the VoltaFail trait, with the discriminant
values assigned in the source. -/
inductive ExitCode where
  | Success
  | UnknownError
  | InvalidArguments
  | NoVersionMatch
  | NetworkError
  | EnvironmentError
  | FileSystemError
  | ConfigurationError
  | NotYetImplemented
  | ExecutionFailure
  | ExecutableNotFound
deriving DecidableEq, Repr

/-- The numeric discriminant of each ExitCode variant, as written in the
source enum. -/
def ExitCode.toNat : ExitCode → Nat
  | .Success => 0
  | .UnknownError => 1
  | .InvalidArguments => 3
  | .NoVersionMatch => 4
  | .NetworkError => 5
  | .EnvironmentError => 6
  | .FileSystemError => 7
  | .ConfigurationError => 8
  | .NotYetImplemented => 9
  | .ExecutionFailure => 126
  | .ExecutableNotFound => 127

/-- Modelled from the spec: the ErrorDetails domain-error enum lives in
notion-core's error module, which is not among the provided sources.  The
spec's taxonomy (§7) names symlink errors as a concrete variant carrying
the description of the underlying failure; the exit-code table row 7
(file could not be read or written) is the closest fit for its code.
Only the SymlinkError variant is exercised by the provided sources. -/
inductive ErrorDetails where
  | SymlinkError (error : String)
deriving DecidableEq, Repr

/-- Modelled from the spec: the display message of an ErrorDetails value
is the carried description of the failure. -/
def ErrorDetails.message : ErrorDetails → String
  | .SymlinkError e => e

/-- Modelled from the spec: the statically assigned exit code of the
SymlinkError variant (filesystem failure, table row 7). -/
def ErrorDetails.exit_code : ErrorDetails → ExitCode
  | .SymlinkError _ => .FileSystemError

/-- A value of some concrete type implementing the VoltaFail trait: it is
observable through its display message and its exit_code method.  The
ErrorDetails constructor keeps the concrete domain variant so that a
downcast (which variant produced this failure) remains observable, as it
is for the type-erased VoltaError in the source. -/
inductive VoltaFailValue where
  | errorDetails (d : ErrorDetails)
  | other (message : String) (code : ExitCode)
deriving DecidableEq, Repr

/-- The display message of a VoltaFail implementor. -/
def VoltaFailValue.message : VoltaFailValue → String
  | .errorDetails d => d.message
  | .other m _ => m

/-- The exit_code method of a VoltaFail implementor. -/
def VoltaFailValue.exit_code : VoltaFailValue → ExitCode
  | .errorDetails d => d.exit_code
  | .other _ c => c

/-- A type-erased failure value (the failure crate's dyn Fail), carrying a
display message and an optional cause.  A context node is the failure
crate's Context of a domain error D: its display is D's display, its
cause is the wrapped lower-layer error. -/
inductive FailValue where
  | external (message : String)
  | externalWith (message : String) (cause : FailValue)
  | voltaFail (v : VoltaFailValue)
  | context (v : VoltaFailValue) (cause : FailValue)
deriving DecidableEq, Repr

/-- The Display implementation of a failure value. -/
def FailValue.display : FailValue → String
  | .external m => m
  | .externalWith m _ => m
  | .voltaFail v => v.message
  | .context v _ => v.message

/-- The list of display messages along the cause chain, starting from the
failure value itself. -/
def FailValue.chainMessages : FailValue → List String
  | .external m => [m]
  | .externalWith m c => m :: c.chainMessages
  | .voltaFail v => [v.message]
  | .context v c => v.message :: c.chainMessages

/-- The VoltaError root error type: the underlying erased failure together
with the exit code recorded at construction time. -/
structure VoltaError where
  error : FailValue
  exit_code : ExitCode
deriving DecidableEq, Repr

/-- The Display implementation of VoltaError delegates to the underlying
failure value. -/
def VoltaError.display (e : VoltaError) : String := e.error.display

/-- The From impl of VoltaError for any VoltaFail implementor: the exit
code is read off the concrete failure once, at construction. -/
def VoltaError.from (failure : VoltaFailValue) : VoltaError :=
  { error := .voltaFail failure, exit_code := failure.exit_code }

/-- The with_context combinator of the FailExt extension trait: given any
error convertible to an erased failure value and a function producing a
higher-level domain error from it, wrap the original error in a context
node whose display and exit code come from the domain error. -/
def with_context {E : Type} (toFail : E → FailValue) (e : E)
    (f : E → VoltaFailValue) : VoltaError :=
  { error := .context (f e) (toFail e), exit_code := (f e).exit_code }

/-! ## The shim lifecycle manager (notion-core shim.rs) -/

/-- The io::ErrorKind values the shim module distinguishes, with a
catch-all for every other kind. -/
inductive IoErrorKind where
  | alreadyExists
  | notFound
  | otherKind (tag : String)
deriving DecidableEq, Repr

/-- A model of std::io::Error: its kind, its own display message, and the
display of the inner error returned by get_ref, when one was attached. -/
structure IoError where
  kind : IoErrorKind
  message : String
  inner : Option String
deriving DecidableEq, Repr

/-- An io::Error erased to a failure value: its display message, with no
further cause. -/
def IoError.toFail (e : IoError) : FailValue := .external e.message

/-- from_io_error of shim.rs: build the SymlinkError details from the
inner error's message when get_ref returns one, else from the io error's
own message. -/
def from_io_error (error : IoError) : ErrorDetails :=
  match error.inner with
  | some innerMsg => .SymlinkError innerMsg
  | none => .SymlinkError error.message

/-- The ShimResult enum of shim.rs. -/
inductive ShimResult where
  | Created
  | AlreadyExists
  | Deleted
  | DoesntExist
deriving DecidableEq, Repr

/-- A filesystem path produced by the out-of-scope path collaborators. -/
abbrev FsPath := String

/-- The events a shim operation can perform against its collaborators:
resolving the launcher path, resolving a shim path, creating a symlink,
removing a file. -/
inductive FsEvent where
  | launchbinFile
  | shimFile (name : String)
  | createSymlink (src dst : FsPath)
  | removeFile (p : FsPath)
deriving DecidableEq, Repr

/-- The environment of filesystem collaborators the shim module calls:
the two path resolvers of the path module and the two effectful
operations (symlink creation, file removal), each with the outcome it
would produce in the current filesystem state. -/
structure ShimEnv where
  launchbin_file : Except VoltaError FsPath
  shim_file : String → Except VoltaError FsPath
  create_file_symlink : FsPath → FsPath → Except IoError Unit
  remove_file : FsPath → Except IoError Unit

/-- is_3p_shim of shim.rs: the four reserved built-in names are not
third-party shims; everything else is. -/
def is_3p_shim (name : String) : Bool :=
  match name with
  | "node" | "yarn" | "npm" | "npx" => false
  | _ => true

/-- shim.rs create: resolve the launcher and shim paths, then attempt the
symlink; an AlreadyExists failure is the idempotent success outcome,
every other failure is wrapped as a SymlinkError via with_context.  The
second component is the log of filesystem events performed. -/
def shimCreate (env : ShimEnv) (shim_name : String) :
    Except VoltaError ShimResult × List FsEvent :=
  match env.launchbin_file with
  | .error e => (.error e, [.launchbinFile])
  | .ok launchbin =>
    match env.shim_file shim_name with
    | .error e => (.error e, [.launchbinFile, .shimFile shim_name])
    | .ok shim =>
      let log := [FsEvent.launchbinFile, .shimFile shim_name,
        .createSymlink launchbin shim]
      match env.create_file_symlink launchbin shim with
      | .ok _ => (.ok .Created, log)
      | .error err =>
        if err.kind = .alreadyExists then
          (.ok .AlreadyExists, log)
        else
          (.error (with_context IoError.toFail err
            (fun e => .errorDetails (from_io_error e))), log)

/-- shim.rs delete: reject the reserved built-in names before anything
else; otherwise resolve the shim path and remove it, treating NotFound as
the idempotent success outcome and wrapping every other failure as a
SymlinkError via with_context. -/
def shimDelete (env : ShimEnv) (shim_name : String) :
    Except VoltaError ShimResult × List FsEvent :=
  if ¬ is_3p_shim shim_name then
    (.error (VoltaError.from (.errorDetails (.SymlinkError
      ("cannot delete `" ++ shim_name ++ "`, not a 3rd-party executable")))), [])
  else
    match env.shim_file shim_name with
    | .error e => (.error e, [.shimFile shim_name])
    | .ok shim =>
      let log := [FsEvent.shimFile shim_name, .removeFile shim]
      match env.remove_file shim with
      | .ok _ => (.ok .Deleted, log)
      | .error err =>
        if err.kind = .notFound then
          (.ok .DoesntExist, log)
        else
          (.error (with_context IoError.toFail err
            (fun e => .errorDetails (from_io_error e))), log)

/-! ## The semver Version model (external semver library, v0.9)

The catalog code uses the semver library's Version type through exactly
three capabilities: fallible parsing from text, rendering to canonical
text, and the precedence order (used by the BTreeSet).  The model below
implements the semantic-versioning grammar the library accepts:
major.minor.patch, an optional dash-introduced pre-release identifier
list and an optional plus-introduced build identifier list, identifiers
being nonempty runs of ASCII alphanumerics and hyphens, classified as
numeric when all digits.  As in semver 0.9, precedence ignores build
metadata. -/

/-- A pre-release or build identifier: numeric, or alphanumeric text. -/
inductive Identifier where
  | numeric (n : Nat)
  | alphaNumeric (s : String)
deriving DecidableEq, Repr

/-- A parsed semantic version. -/
structure Version where
  major : Nat
  minor : Nat
  patch : Nat
  pre : List Identifier
  build : List Identifier
deriving DecidableEq, Repr

/-- The decimal digit value of a digit character. -/
def digitVal (c : Char) : Nat := c.toNat - 48

/-- Accumulate a run of decimal digit characters into a number (most
significant first). -/
def parseNatChars (cs : List Char) : Nat :=
  cs.foldl (fun a c => 10 * a + digitVal c) 0

/-- Decimal rendering worker, most significant digit first; the fuel
argument dominates the number and makes the recursion structural. -/
def natCharsAux : Nat → Nat → List Char
  | 0, _ => []
  | _ + 1, 0 => []
  | fuel + 1, n + 1 =>
    natCharsAux fuel ((n + 1) / 10) ++ [Nat.digitChar ((n + 1) % 10)]

/-- The canonical decimal rendering of a number. -/
def natChars (n : Nat) : List Char :=
  if n = 0 then ['0'] else natCharsAux n n

/-- The characters allowed inside an identifier: ASCII alphanumerics and
the hyphen. -/
def isIdentChar (c : Char) : Bool := c.isAlphanum || c = '-'

/-- Parse one complete identifier: nonempty, all characters allowed,
numeric exactly when all characters are digits. -/
def parseIdentifier (cs : List Char) : Option Identifier :=
  if cs.isEmpty then none
  else if ¬ cs.all isIdentChar then none
  else if cs.all Char.isDigit then some (.numeric (parseNatChars cs))
  else some (.alphaNumeric (String.mk cs))

/-- Parse a dot-separated, nonempty identifier section (the text after
the dash or the plus). -/
def parseDotSep (cs : List Char) : Option (List Identifier) :=
  (cs.splitOn '.').mapM parseIdentifier

/-- The canonical characters of an identifier. -/
def identChars : Identifier → List Char
  | .numeric n => natChars n
  | .alphaNumeric s => s.data

/-- Take a leading nonempty digit run as a number, returning the rest. -/
def readNat (cs : List Char) : Option (Nat × List Char) :=
  let ds := cs.takeWhile Char.isDigit
  if ds.isEmpty then none
  else some (parseNatChars ds, cs.dropWhile Char.isDigit)

/-- Expect one specific character, returning the rest. -/
def expectChar (c : Char) : List Char → Option (List Char)
  | x :: rest => if x = c then some rest else none
  | [] => none

/-- Parse the text that may follow the patch number: nothing, a
plus-introduced build section, or a dash-introduced pre-release section
optionally followed by a plus-introduced build section. -/
def Version.parseTail (major minor patch : Nat) : List Char → Option Version
  | [] => some ⟨major, minor, patch, [], []⟩
  | c :: rest =>
    if c = '+' then
      match parseDotSep rest with
      | none => none
      | some build => some ⟨major, minor, patch, [], build⟩
    else if c = '-' then
      match parseDotSep (rest.takeWhile (· ≠ '+')) with
      | none => none
      | some pre =>
        match rest.dropWhile (· ≠ '+') with
        | [] => some ⟨major, minor, patch, pre, []⟩
        | _ :: bs =>
          match parseDotSep bs with
          | none => none
          | some build => some ⟨major, minor, patch, pre, build⟩
    else none

/-- Parse a full version string: major, dot, minor, dot, patch, then an
optional dash-introduced pre-release section and an optional
plus-introduced build section, with no trailing text. -/
def Version.parseChars (cs : List Char) : Option Version :=
  match readNat cs with
  | none => none
  | some (major, r1) =>
    match expectChar '.' r1 with
    | none => none
    | some r2 =>
      match readNat r2 with
      | none => none
      | some (minor, r3) =>
        match expectChar '.' r3 with
        | none => none
        | some r4 =>
          match readNat r4 with
          | none => none
          | some (patch, r5) => Version.parseTail major minor patch r5

/-- The structured parse error of the semver library, carrying the text
that failed to parse. -/
inductive SemVerError where
  | parseError (text : String)
deriving DecidableEq, Repr

/-- Version::parse of the semver library. -/
def Version.parse (s : String) : Except SemVerError Version :=
  match Version.parseChars s.data with
  | some v => .ok v
  | none => .error (.parseError s)

/-- The canonical rendering of a version: major.minor.patch, then the
pre-release identifiers joined by dots after a dash when present, then
the build identifiers joined by dots after a plus when present. -/
def Version.chars (v : Version) : List Char :=
  natChars v.major ++ ('.' :: (natChars v.minor ++ ('.' :: (natChars v.patch
    ++ ((if v.pre.isEmpty then []
         else '-' :: ['.'].intercalate (v.pre.map identChars))
      ++ (if v.build.isEmpty then []
          else '+' :: ['.'].intercalate (v.build.map identChars)))))))

/-- The Display / to_string rendering of a version. -/
def Version.render (v : Version) : String := String.mk v.chars

/-- Three-way comparison on numbers. -/
def natCmp (a b : Nat) : Ordering :=
  if a < b then .lt else if a = b then .eq else .gt

/-- Three-way comparison on characters (by code point, which agrees with
the byte order of the source's strings on the ASCII identifiers the
grammar admits). -/
def charCmp (a b : Char) : Ordering := natCmp a.toNat b.toNat

/-- Lexicographic three-way comparison on lists. -/
def listCmp (cmp : α → α → Ordering) : List α → List α → Ordering
  | [], [] => .eq
  | [], _ :: _ => .lt
  | _ :: _, [] => .gt
  | a :: as, b :: bs =>
    match cmp a b with
    | .eq => listCmp cmp as bs
    | o => o

/-- Comparison of identifiers: numeric identifiers order below
alphanumeric ones, numerics by value, alphanumerics lexicographically. -/
def identCmp : Identifier → Identifier → Ordering
  | .numeric a, .numeric b => natCmp a b
  | .numeric _, .alphaNumeric _ => .lt
  | .alphaNumeric _, .numeric _ => .gt
  | .alphaNumeric a, .alphaNumeric b => listCmp charCmp a.data b.data

/-- Comparison of pre-release sections: an empty pre-release list orders
above any nonempty one, nonempty lists lexicographically. -/
def preCmp : List Identifier → List Identifier → Ordering
  | [], [] => .eq
  | [], _ :: _ => .gt
  | _ :: _, [] => .lt
  | a, b => listCmp identCmp a b

/-- Precedence comparison of versions, as implemented by semver 0.9:
major, then minor, then patch, then the pre-release rule; build metadata
is ignored. -/
def Version.cmp (a b : Version) : Ordering :=
  (natCmp a.major b.major).then ((natCmp a.minor b.minor).then
    ((natCmp a.patch b.patch).then (preCmp a.pre b.pre)))

/-- An identifier whose canonical rendering parses back to itself: every
numeric identifier, and the alphanumeric ones that are nonempty, use
only allowed characters and are not all digits (those parse as numeric).
Parsing only ever produces valid identifiers. -/
def Identifier.valid : Identifier → Bool
  | .numeric _ => true
  | .alphaNumeric s =>
    ¬ s.data.isEmpty && s.data.all isIdentChar && ¬ s.data.all Char.isDigit

/-- A version all of whose identifiers are valid. -/
def Version.valid (v : Version) : Bool :=
  v.pre.all Identifier.valid && v.build.all Identifier.valid

/-! ## The BTreeSet model and the catalog data model -/

/-- Insertion into the sorted, deduplicated list modelling a BTreeSet of
versions ordered by precedence: a version comparing equal to a present
element is dropped (the present entry is kept, as BTreeSet insert does
not update an existing entry). -/
def btInsert (v : Version) : List Version → List Version
  | [] => [v]
  | w :: ws =>
    match Version.cmp v w with
    | .lt => v :: w :: ws
    | .eq => w :: ws
    | .gt => w :: btInsert v ws

/-- BTreeSet from_iter: insert the versions in iteration order. -/
def btFromList (l : List Version) : List Version :=
  l.foldl (fun s v => btInsert v s) []

namespace catalog

/-- The in-memory node catalog: the optional current version and the
ordered, deduplicated set of installed versions (the BTreeSet's
ascending element list). -/
structure NodeCatalog where
  current : Option Version
  versions : List Version
deriving DecidableEq, Repr

/-- The in-memory catalog container. -/
structure Catalog where
  node : NodeCatalog
deriving DecidableEq, Repr

end catalog

namespace serial

/-- The serialized node section: the optional current version text and
the list of version texts. -/
structure NodeCatalog where
  current : Option String
  versions : List String
deriving DecidableEq, Repr

/-- The Default impl of the serialized node section: no current, no
versions. -/
def NodeCatalog.default : NodeCatalog :=
  { current := none, versions := [] }

/-- The serialized catalog document, with the serde default applied to an
absent node section. -/
structure Catalog where
  node : NodeCatalog
deriving DecidableEq, Repr

/-- Deserializing a document whose node section may be absent: serde's
field default supplies the empty node section. -/
def decodeCatalog (node? : Option NodeCatalog) : Catalog :=
  { node := node?.getD NodeCatalog.default }

/-- NodeCatalog::into_node_catalog: parse the current version if present,
then parse every version in the list (all-or-nothing), collecting the
successes into the ordered set. -/
def NodeCatalog.into_node_catalog (s : NodeCatalog) :
    Except SemVerError catalog.NodeCatalog :=
  match (match s.current with
         | some v => (Version.parse v).map some
         | none => .ok none) with
  | .error e => .error e
  | .ok current =>
    match s.versions.mapM Version.parse with
    | .error e => .error e
    | .ok versions =>
      .ok { current := current, versions := btFromList versions }

/-- Catalog::into_catalog. -/
def Catalog.into_catalog (s : Catalog) :
    Except SemVerError catalog.Catalog :=
  match s.node.into_node_catalog with
  | .error e => .error e
  | .ok node => .ok { node := node }

end serial

/-- catalog::NodeCatalog::to_serial: render the current version and each
element of the set, in ascending iteration order. -/
def catalog.NodeCatalog.to_serial (c : catalog.NodeCatalog) :
    serial.NodeCatalog :=
  { current := c.current.map Version.render,
    versions := c.versions.map Version.render }

/-- catalog::Catalog::to_serial. -/
def catalog.Catalog.to_serial (c : catalog.Catalog) : serial.Catalog :=
  { node := c.node.to_serial }

/-! ## Supporting lemmas on the failure protocol and the shim manager -/

/-- The display of a failure value heads its own cause-chain message
list. -/
theorem FailValue.display_mem_chainMessages (e : FailValue) :
    e.display ∈ e.chainMessages := by
  cases e <;> simp [FailValue.display, FailValue.chainMessages]

/-- The classification of the four reserved names, in both directions. -/
theorem is_3p_shim_eq_false_iff (name : String) :
    is_3p_shim name = false ↔
      (name = "node" ∨ name = "yarn" ∨ name = "npm" ∨ name = "npx") := by
  constructor
  · intro h
    unfold is_3p_shim at h
    split at h
    · exact Or.inl rfl
    · exact Or.inr (Or.inl rfl)
    · exact Or.inr (Or.inr (Or.inl rfl))
    · exact Or.inr (Or.inr (Or.inr rfl))
    · exact absurd h (by simp)
  · intro h
    rcases h with h | h | h | h <;> subst h <;> rfl

/-- C1: for every lower-layer error value e and every function f mapping
a reference to e into a domain error implementing the exit-code
interface, with_context e f produces a root VoltaError whose display
message is the higher-level domain error's message, whose exit_code
equals the higher-level domain error's exit code, and whose cause chain
reaches the original error e's message. -/
theorem c1_with_context_contract (e : FailValue)
    (f : FailValue → VoltaFailValue) :
    (with_context id e f).display = (f e).message ∧
    (with_context id e f).exit_code = (f e).exit_code ∧
    e.display ∈ (with_context id e f).error.chainMessages := by
  refine ⟨rfl, rfl, ?_⟩
  show e.display ∈ (f e).message :: e.chainMessages
  exact List.mem_cons_of_mem _ (FailValue.display_mem_chainMessages e)

/-- C3: for each of the four reserved names, delete always returns the
SymlinkError failure describing the attempt as invalid, independently of
the filesystem environment, and performs no filesystem event at all (in
particular the shim path is never resolved). -/
theorem c3_delete_builtin_rejected (name : String)
    (h : name = "node" ∨ name = "npm" ∨ name = "yarn" ∨ name = "npx")
    (env : ShimEnv) :
    shimDelete env name =
      (.error (VoltaError.from (.errorDetails (.SymlinkError
        ("cannot delete `" ++ name ++ "`, not a 3rd-party executable")))),
       []) := by
  rcases h with h | h | h | h <;> subst h <;> rfl

/-- Witness for C3: deleting the built-in name node in a fully healthy
environment still fails with the SymlinkError and logs no filesystem
event. -/
theorem c3_delete_builtin_rejected_witness :
    shimDelete
        ⟨.ok "lb", fun n => .ok ("shims/" ++ n),
         fun _ _ => .ok (), fun _ => .ok ()⟩ "node" =
      (.error (VoltaError.from (.errorDetails (.SymlinkError
        "cannot delete `node`, not a 3rd-party executable"))), []) :=
  c3_delete_builtin_rejected "node" (Or.inl rfl) _

/-- C4: with the path collaborators succeeding, an underlying symlink
creation failure of kind AlreadyExists becomes the successful outcome
AlreadyExists and a removal failure of kind NotFound on a non-built-in
becomes the successful outcome DoesntExist, while every other underlying
filesystem failure of either operation is surfaced as a with_context
wrap of the io error whose attached domain error is a SymlinkError —
never silently discarded. -/
theorem c4_idempotent_outcomes_and_surfacing (env : ShimEnv)
    (name : String) (launchbin shim : FsPath) (cerr derr : IoError)
    (hlb : env.launchbin_file = .ok launchbin)
    (hsh : env.shim_file name = .ok shim)
    (h3p : is_3p_shim name = true)
    (hc : env.create_file_symlink launchbin shim = .error cerr)
    (hd : env.remove_file shim = .error derr) :
    (shimCreate env name).1 =
      (if cerr.kind = .alreadyExists then .ok .AlreadyExists
       else .error (with_context IoError.toFail cerr
         (fun e => .errorDetails (from_io_error e)))) ∧
    (shimDelete env name).1 =
      (if derr.kind = .notFound then .ok .DoesntExist
       else .error (with_context IoError.toFail derr
         (fun e => .errorDetails (from_io_error e)))) ∧
    from_io_error cerr = .SymlinkError (cerr.inner.getD cerr.message) ∧
    from_io_error derr = .SymlinkError (derr.inner.getD derr.message) := by
  refine ⟨?_, ?_, ?_, ?_⟩
  · simp only [shimCreate, hlb, hsh, hc]
    by_cases hk : cerr.kind = .alreadyExists <;> simp [hk]
  · simp only [shimDelete, h3p, hsh, hd, not_true, if_neg, Bool.true_eq_false,
      not_false_eq_true]
    by_cases hk : derr.kind = .notFound <;> simp [hk]
  · unfold from_io_error
    cases cerr.inner <;> simp [Option.getD]
  · unfold from_io_error
    cases derr.inner <;> simp [Option.getD]

/-- A concrete io error of kind AlreadyExists, for the C4 witness. -/
def ioAlready : IoError := ⟨.alreadyExists, "entry exists", none⟩

/-- A concrete io error of kind NotFound, for the C4 witness. -/
def ioMissing : IoError := ⟨.notFound, "no such file", none⟩

/-- A concrete environment whose symlink creation fails with
AlreadyExists and whose file removal fails with NotFound. -/
def envFailing : ShimEnv :=
  ⟨.ok "lb", fun n => .ok ("shims/" ++ n),
   fun _ _ => .error ioAlready, fun _ => .error ioMissing⟩

/-- Witness for C4: in the concrete failing environment, create and
delete of the name tsc take the idempotent branches. -/
theorem c4_idempotent_outcomes_and_surfacing_witness :
    (shimCreate envFailing "tsc").1 =
      (if ioAlready.kind = .alreadyExists then .ok .AlreadyExists
       else .error (with_context IoError.toFail ioAlready
         (fun e => .errorDetails (from_io_error e)))) ∧
    (shimDelete envFailing "tsc").1 =
      (if ioMissing.kind = .notFound then .ok .DoesntExist
       else .error (with_context IoError.toFail ioMissing
         (fun e => .errorDetails (from_io_error e)))) ∧
    from_io_error ioAlready =
      .SymlinkError (ioAlready.inner.getD ioAlready.message) ∧
    from_io_error ioMissing =
      .SymlinkError (ioMissing.inner.getD ioMissing.message) :=
  c4_idempotent_outcomes_and_surfacing envFailing "tsc" "lb" "shims/tsc"
    ioAlready ioMissing rfl rfl rfl rfl rfl

/-- C7: the built-in classification marks exactly node, yarn, npm and
npx as built-in and every other name as third-party, and create never
consults the classification: its outcome depends on the name only
through the shim-path resolver, so any two names with the same resolved
outcome get identical create results. -/
theorem c7_builtin_classification (name : String) :
    (is_3p_shim name = false ↔
      (name = "node" ∨ name = "yarn" ∨ name = "npm" ∨ name = "npx")) ∧
    (∀ env : ShimEnv, ∀ other : String,
      env.shim_file name = env.shim_file other →
      (shimCreate env name).1 = (shimCreate env other).1) := by
  refine ⟨is_3p_shim_eq_false_iff name, ?_⟩
  intro env other hsame
  cases hl : env.launchbin_file with
  | error e => simp [shimCreate, hl]
  | ok launchbin =>
    cases hs : env.shim_file other with
    | error e => simp [shimCreate, hl, hsame, hs]
    | ok shim =>
      cases hc : env.create_file_symlink launchbin shim with
      | ok u => simp [shimCreate, hl, hsame, hs, hc]
      | error err =>
        by_cases hk : err.kind = .alreadyExists <;>
          simp [shimCreate, hl, hsame, hs, hc, hk]

/-- Witness for C7: the built-in name node and the third-party name tsc
give the same create outcome in an environment resolving every shim to
the same path. -/
theorem c7_builtin_classification_witness :
    (is_3p_shim "node" = false ↔
      ("node" = "node" ∨ "node" = "yarn" ∨ "node" = "npm" ∨
        "node" = "npx")) ∧
    (∀ env : ShimEnv, ∀ other : String,
      env.shim_file "node" = env.shim_file other →
      (shimCreate env "node").1 = (shimCreate env other).1) :=
  c7_builtin_classification "node"

/-- C8: deserializing a document whose node section is entirely absent
succeeds and yields a catalog with no current version and an empty
version set, and the applied default makes the absent section identical
to an explicit empty node section. -/
theorem c8_absent_node_section_defaults :
    (serial.decodeCatalog none).into_catalog =
      .ok { node := { current := none, versions := [] } } ∧
    serial.decodeCatalog none =
      serial.decodeCatalog (some { current := none, versions := [] }) :=
  ⟨rfl, rfl⟩

/-- C9: the ExitCode enumeration carries exactly the numeric values of
the spec's table, and every VoltaError constructed from a concrete
VoltaFail value reports that value's statically assigned code. -/
theorem c9_exit_code_table :
    ExitCode.toNat .Success = 0 ∧
    ExitCode.toNat .UnknownError = 1 ∧
    ExitCode.toNat .InvalidArguments = 3 ∧
    ExitCode.toNat .NoVersionMatch = 4 ∧
    ExitCode.toNat .NetworkError = 5 ∧
    ExitCode.toNat .EnvironmentError = 6 ∧
    ExitCode.toNat .FileSystemError = 7 ∧
    ExitCode.toNat .ConfigurationError = 8 ∧
    ExitCode.toNat .NotYetImplemented = 9 ∧
    ExitCode.toNat .ExecutionFailure = 126 ∧
    ExitCode.toNat .ExecutableNotFound = 127 ∧
    ∀ v : VoltaFailValue, (VoltaError.from v).exit_code = v.exit_code :=
  ⟨rfl, rfl, rfl, rfl, rfl, rfl, rfl, rfl, rfl, rfl, rfl, fun _ => rfl⟩

/-! ## Round-trip lemmas for the decimal renderer -/

/-- The character of a decimal digit is a digit character. -/
theorem digitChar_isDigit {d : Nat} (h : d < 10) :
    (Nat.digitChar d).isDigit = true := by
  interval_cases d <;> decide

/-- Reading back the character of a decimal digit gives the digit. -/
theorem digitVal_digitChar {d : Nat} (h : d < 10) :
    digitVal (Nat.digitChar d) = d := by
  interval_cases d <;> decide

/-- Every character the decimal worker emits is a digit character. -/
theorem natCharsAux_all_digit (fuel n : Nat) :
    ∀ c ∈ natCharsAux fuel n, c.isDigit = true := by
  induction fuel generalizing n with
  | zero => simp [natCharsAux]
  | succ f ih =>
    cases n with
    | zero => simp [natCharsAux]
    | succ m =>
      intro c hc
      simp only [natCharsAux, List.mem_append, List.mem_singleton] at hc
      rcases hc with hc | rfl
      · exact ih _ c hc
      · exact digitChar_isDigit (Nat.mod_lt _ (by omega))

/-- Every character of a rendered number is a digit character. -/
theorem natChars_all_digit (n : Nat) : ∀ c ∈ natChars n, c.isDigit = true := by
  unfold natChars
  split
  · simp
  · exact natCharsAux_all_digit n n

/-- A rendered number is never the empty string. -/
theorem natChars_ne_nil (n : Nat) : natChars n ≠ [] := by
  unfold natChars
  split
  · simp
  · cases n with
    | zero => simp_all
    | succ m => simp [natCharsAux]

/-- Reading back the decimal worker's output recovers the number, as
long as the fuel dominates it. -/
theorem parseNatChars_natCharsAux {fuel n : Nat} (h : n ≤ fuel) :
    parseNatChars (natCharsAux fuel n) = n := by
  induction fuel generalizing n with
  | zero =>
    have hn : n = 0 := by omega
    subst hn; rfl
  | succ f ih =>
    cases n with
    | zero => rfl
    | succ m =>
      have hdiv : (m + 1) / 10 ≤ f := by
        have := Nat.div_lt_self (Nat.succ_pos m) (by omega : 1 < 10)
        omega
      have h1 : parseNatChars (natCharsAux f ((m + 1) / 10)) = (m + 1) / 10 :=
        ih hdiv
      simp only [natCharsAux, parseNatChars, List.foldl_append] at h1 ⊢
      rw [h1, List.foldl_cons, List.foldl_nil,
        digitVal_digitChar (Nat.mod_lt _ (by omega))]
      omega

/-- Reading back a rendered number recovers the number. -/
theorem parseNatChars_natChars (n : Nat) : parseNatChars (natChars n) = n := by
  unfold natChars
  split
  · simp_all [parseNatChars, digitVal]
  · exact parseNatChars_natCharsAux (Nat.le_refl n)

/-! ## takeWhile and dropWhile over concatenations -/

/-- takeWhile over a concatenation whose first part satisfies the
predicate throughout. -/
theorem takeWhile_append_all {p : α → Bool} {l₁ l₂ : List α}
    (h : ∀ a ∈ l₁, p a = true) :
    (l₁ ++ l₂).takeWhile p = l₁ ++ l₂.takeWhile p := by
  induction l₁ with
  | nil => simp
  | cons x xs ih =>
    simp only [List.cons_append, List.takeWhile_cons, h x (by simp), if_true]
    rw [ih (fun a ha => h a (by simp [ha]))]

/-- dropWhile over a concatenation whose first part satisfies the
predicate throughout. -/
theorem dropWhile_append_all {p : α → Bool} {l₁ l₂ : List α}
    (h : ∀ a ∈ l₁, p a = true) :
    (l₁ ++ l₂).dropWhile p = l₂.dropWhile p := by
  induction l₁ with
  | nil => simp
  | cons x xs ih =>
    simp only [List.cons_append, List.dropWhile_cons, h x (by simp)]
    exact ih (fun a ha => h a (by simp [ha]))

/-- takeWhile stops immediately when the head fails the predicate. -/
theorem takeWhile_eq_nil_of_head {p : α → Bool} {l : List α}
    (h : ∀ c, l.head? = some c → p c = false) : l.takeWhile p = [] := by
  cases l with
  | nil => rfl
  | cons x xs => simp [List.takeWhile_cons, h x rfl]

/-- dropWhile keeps the whole list when the head fails the predicate. -/
theorem dropWhile_eq_self_of_head {p : α → Bool} {l : List α}
    (h : ∀ c, l.head? = some c → p c = false) : l.dropWhile p = l := by
  cases l with
  | nil => rfl
  | cons x xs => simp [List.dropWhile_cons, h x rfl]

/-- Reading a number off a rendered number followed by a non-digit rest
consumes exactly the rendered number. -/
theorem readNat_natChars (n : Nat) (rest : List Char)
    (h : ∀ c, rest.head? = some c → c.isDigit = false) :
    readNat (natChars n ++ rest) = some (n, rest) := by
  unfold readNat
  rw [takeWhile_append_all (natChars_all_digit n),
    dropWhile_append_all (natChars_all_digit n),
    takeWhile_eq_nil_of_head h, dropWhile_eq_self_of_head h,
    List.append_nil]
  simp [natChars_ne_nil n, parseNatChars_natChars]

/-! ## Round-trip lemmas for identifiers and identifier sections -/

/-- A digit character is an allowed identifier character. -/
theorem isIdentChar_of_isDigit {c : Char} (h : c.isDigit = true) :
    isIdentChar c = true := by
  simp [isIdentChar, Char.isAlphanum, h]

/-- Every character of a valid identifier's rendering is an allowed
identifier character. -/
theorem identChars_all_identChar {id : Identifier} (h : id.valid = true) :
    ∀ c ∈ identChars id, isIdentChar c = true := by
  cases id with
  | numeric n =>
    exact fun c hc => isIdentChar_of_isDigit (natChars_all_digit n c hc)
  | alphaNumeric s =>
    simp only [Identifier.valid, Bool.and_eq_true, List.all_eq_true] at h
    exact fun c hc => h.1.2 c hc

/-- A valid identifier's rendering is nonempty. -/
theorem identChars_ne_nil {id : Identifier} (h : id.valid = true) :
    identChars id ≠ [] := by
  cases id with
  | numeric n => exact natChars_ne_nil n
  | alphaNumeric s =>
    simp only [Identifier.valid, Bool.and_eq_true] at h
    simpa using h.1.1

/-- The dot is not an allowed identifier character, hence never occurs in
a valid identifier's rendering. -/
theorem dot_not_mem_identChars {id : Identifier} (h : id.valid = true) :
    '.' ∉ identChars id := by
  intro hc
  have := identChars_all_identChar h '.' hc
  simp [isIdentChar, Char.isAlphanum, Char.isAlpha, Char.isUpper,
    Char.isLower, Char.isDigit] at this

/-- The plus sign is not an allowed identifier character, hence never
occurs in a valid identifier's rendering. -/
theorem plus_not_mem_identChars {id : Identifier} (h : id.valid = true) :
    '+' ∉ identChars id := by
  intro hc
  have := identChars_all_identChar h '+' hc
  simp [isIdentChar, Char.isAlphanum, Char.isAlpha, Char.isUpper,
    Char.isLower, Char.isDigit] at this

/-- Parsing the rendering of a valid identifier recovers it. -/
theorem parseIdentifier_identChars {id : Identifier} (h : id.valid = true) :
    parseIdentifier (identChars id) = some id := by
  cases id with
  | numeric n =>
    unfold parseIdentifier identChars
    rw [if_neg (by simpa using natChars_ne_nil n),
      if_neg (by
        simp only [List.all_eq_true, not_not]
        exact fun c hc => isIdentChar_of_isDigit (natChars_all_digit n c hc)),
      if_pos (by
        simp only [List.all_eq_true]
        exact natChars_all_digit n)]
    rw [parseNatChars_natChars]
  | alphaNumeric s =>
    simp only [Identifier.valid, Bool.and_eq_true, List.all_eq_true] at h
    unfold parseIdentifier identChars
    rw [if_neg (by simpa using h.1.1), if_neg (by
        simp only [List.all_eq_true, not_not]
        exact h.1.2),
      if_neg (by
        simpa using h.2)]

/-- Every identifier the single-identifier reader produces is valid. -/
theorem parseIdentifier_valid {cs : List Char} {id : Identifier}
    (h : parseIdentifier cs = some id) : id.valid = true := by
  unfold parseIdentifier at h
  split at h
  · exact absurd h (by simp)
  · split at h
    · exact absurd h (by simp)
    · split at h
      · simp only [Option.some_inj] at h
        subst h
        rfl
      · simp only [Option.some_inj] at h
        subst h
        simp_all [Identifier.valid]

/-- Mapping a reader over renderings that each read back gives back the
original list. -/
theorem mapM_map_round {α β : Type} (f : α → Option β) (g : β → α)
    (l : List β) (h : ∀ b ∈ l, f (g b) = some b) :
    (l.map g).mapM f = some l := by
  induction l with
  | nil => rfl
  | cons x xs ih =>
    rw [List.map_cons, List.mapM_cons, h x (by simp),
      ih (fun b hb => h b (by simp [hb]))]
    rfl

/-- Every element an Option-valued mapM produces comes from some input
element. -/
theorem mapM_some_forall {α β : Type} {f : α → Option β} :
    ∀ {l : List α} {out : List β}, l.mapM f = some out →
      ∀ b ∈ out, ∃ a ∈ l, f a = some b := by
  intro l
  induction l with
  | nil =>
    intro out h
    simp only [List.mapM_nil, Option.pure_def, Option.some_inj] at h
    simp [← h]
  | cons x xs ih =>
    intro out h
    rw [List.mapM_cons] at h
    cases hx : f x with
    | none => rw [hx] at h; exact absurd h (by simp)
    | some b0 =>
      rw [hx] at h
      cases hxs : xs.mapM f with
      | none => rw [hxs] at h; exact absurd h (by simp)
      | some rest =>
        rw [hxs] at h
        simp at h
        intro b hb
        rw [← h] at hb
        rcases List.mem_cons.mp hb with rfl | hb
        · exact ⟨x, by simp, hx⟩
        · obtain ⟨a, ha, hfa⟩ := ih hxs b hb
          exact ⟨a, by simp [ha], hfa⟩

/-- A character in an intercalation by dots lies in some chunk or is the
dot itself. -/
theorem mem_intercalate_dot {ls : List (List Char)} {c : Char}
    (hc : c ∈ ['.'].intercalate ls) : c = '.' ∨ ∃ l ∈ ls, c ∈ l := by
  induction ls with
  | nil => simp [List.intercalate] at hc
  | cons a t ih =>
    cases t with
    | nil =>
      simp only [List.intercalate, List.intersperse_singleton,
        List.flatten] at hc
      right
      exact ⟨a, by simp, by simpa using hc⟩
    | cons b t' =>
      rw [show (['.'].intercalate (a :: b :: t')) =
          a ++ ['.'] ++ ['.'].intercalate (b :: t') by
        simp [List.intercalate, List.intersperse_cons_cons]] at hc
      simp only [List.append_assoc, List.mem_append, List.mem_singleton] at hc
      rcases hc with hc | hc | hc
      · exact Or.inr ⟨a, by simp, hc⟩
      · exact Or.inl hc
      · rcases ih hc with h | ⟨l, hl, hcl⟩
        · exact Or.inl h
        · exact Or.inr ⟨l, by simp [hl], hcl⟩

/-- Parsing a dot-intercalation of valid identifier renderings recovers
the identifier list. -/
theorem parseDotSep_intercalate {ids : List Identifier} (hne : ids ≠ [])
    (hval : ∀ i ∈ ids, i.valid = true) :
    parseDotSep (['.'].intercalate (ids.map identChars)) = some ids := by
  unfold parseDotSep
  rw [List.splitOn_intercalate _ '.'
    (by
      intro l hl
      obtain ⟨i, hi, rfl⟩ := List.mem_map.mp hl
      exact dot_not_mem_identChars (hval i hi))
    (by simpa using hne)]
  exact mapM_map_round _ _ _
    (fun i hi => parseIdentifier_identChars (hval i hi))

/-- Every identifier list the section reader produces is nonempty and
consists of valid identifiers. -/
theorem parseDotSep_valid {cs : List Char} {ids : List Identifier}
    (h : parseDotSep cs = some ids) :
    ids ≠ [] ∧ ∀ i ∈ ids, i.valid = true := by
  unfold parseDotSep at h
  constructor
  · intro hnil
    subst hnil
    have hsplit := List.splitOnP_ne_nil (· == '.') cs
    cases hcs : cs.splitOn '.' with
    | nil => exact hsplit hcs
    | cons a t =>
      rw [show cs.splitOn '.' = a :: t from hcs, List.mapM_cons] at h
      cases ha : parseIdentifier a with
      | none => rw [ha] at h; exact absurd h (by simp)
      | some i =>
        rw [ha] at h
        cases ht : t.mapM parseIdentifier with
        | none => rw [ht] at h; exact absurd h (by simp)
        | some rest => rw [ht] at h; simp at h
  · intro i hi
    obtain ⟨a, _, hfa⟩ := mapM_some_forall h i hi
    exact parseIdentifier_valid hfa

/-- Expecting the character that heads the list consumes it. -/
theorem expectChar_cons_self (c : Char) (l : List Char) :
    expectChar c (c :: l) = some l := by
  simp [expectChar]

/-- takeWhile keeps a list all of whose elements satisfy the predicate. -/
theorem takeWhile_all {p : α → Bool} {l : List α}
    (h : ∀ a ∈ l, p a = true) : l.takeWhile p = l := by
  induction l with
  | nil => rfl
  | cons x xs ih =>
    simp only [List.takeWhile_cons, h x (by simp), if_true]
    rw [ih (fun a ha => h a (by simp [ha]))]

/-- dropWhile drops a list all of whose elements satisfy the predicate. -/
theorem dropWhile_all {p : α → Bool} {l : List α}
    (h : ∀ a ∈ l, p a = true) : l.dropWhile p = [] := by
  induction l with
  | nil => rfl
  | cons x xs ih =>
    simp only [List.dropWhile_cons, h x (by simp), if_true]
    exact ih (fun a ha => h a (by simp [ha]))

/-- No character of a dot-intercalation of valid identifier renderings is
a plus sign. -/
theorem intercalate_ne_plus {ids : List Identifier}
    (hval : ∀ i ∈ ids, i.valid = true) :
    ∀ c ∈ ['.'].intercalate (ids.map identChars),
      decide (c ≠ '+') = true := by
  intro c hc
  rcases mem_intercalate_dot hc with rfl | ⟨l, hl, hcl⟩
  · decide
  · obtain ⟨i, hi, rfl⟩ := List.mem_map.mp hl
    have hne : c ≠ '+' :=
      fun hcp => plus_not_mem_identChars (hval i hi) (hcp ▸ hcl)
    simpa using hne

/-- A dot cannot open a number. -/
theorem head_dot_not_digit :
    ∀ (l : List Char) (c : Char), ('.' :: l).head? = some c →
      c.isDigit = false := by
  intro l c hc
  simp only [List.head?_cons, Option.some_inj] at hc
  subst hc
  decide

/-- Parsing a rendered major.minor.patch spine hands the rest to the
tail reader. -/
theorem parseChars_spine (M m p : Nat) (tail : List Char)
    (hhead : ∀ c, tail.head? = some c → c.isDigit = false) :
    Version.parseChars (natChars M ++ ('.' :: (natChars m ++ ('.' ::
        (natChars p ++ tail))))) = Version.parseTail M m p tail := by
  have e1 := readNat_natChars M
    ('.' :: (natChars m ++ ('.' :: (natChars p ++ tail))))
    (head_dot_not_digit _)
  have e2 := readNat_natChars m ('.' :: (natChars p ++ tail))
    (head_dot_not_digit _)
  have e3 := readNat_natChars p tail hhead
  simp only [Version.parseChars, e1, e2, e3, expectChar_cons_self]

/-- Parsing the rendering of a version whose identifiers are all valid
recovers the version exactly. -/
theorem parseChars_chars {v : Version} (h : v.valid = true) :
    Version.parseChars (Version.chars v) = some v := by
  obtain ⟨M, m, p, pre, build⟩ := v
  simp only [Version.valid, Bool.and_eq_true, List.all_eq_true] at h
  obtain ⟨hpre, hbuild⟩ := h
  cases pre with
  | nil =>
    cases build with
    | nil =>
      show Version.parseChars (natChars M ++ ('.' :: (natChars m ++ ('.' ::
        (natChars p ++ ([] ++ [])))))) = _
      rw [List.nil_append, parseChars_spine M m p [] (by simp)]
      rfl
    | cons bi bt =>
      show Version.parseChars (natChars M ++ ('.' :: (natChars m ++ ('.' ::
        (natChars p ++ ([] ++ ('+' :: ['.'].intercalate
          ((bi :: bt).map identChars)))))))) = _
      rw [List.nil_append, parseChars_spine M m p _
        (by intro c hc; simp only [List.head?_cons, Option.some_inj] at hc
            subst hc; decide)]
      simp only [Version.parseTail, if_true]
      rw [parseDotSep_intercalate (by simp) hbuild]
  | cons pi pt =>
    cases build with
    | nil =>
      show Version.parseChars (natChars M ++ ('.' :: (natChars m ++ ('.' ::
        (natChars p ++ (('-' :: ['.'].intercalate
          ((pi :: pt).map identChars)) ++ [])))))) = _
      rw [List.append_nil, parseChars_spine M m p _
        (by intro c hc; simp only [List.head?_cons, Option.some_inj] at hc
            subst hc; decide)]
      simp only [Version.parseTail, if_true]
      rw [takeWhile_all (intercalate_ne_plus hpre),
        dropWhile_all (intercalate_ne_plus hpre),
        parseDotSep_intercalate (by simp) hpre, if_neg (by decide)]
    | cons bi bt =>
      show Version.parseChars (natChars M ++ ('.' :: (natChars m ++ ('.' ::
        (natChars p ++ (('-' :: ['.'].intercalate ((pi :: pt).map identChars))
          ++ ('+' :: ['.'].intercalate ((bi :: bt).map identChars)))))))) = _
      rw [List.cons_append, parseChars_spine M m p _
        (by intro c hc; simp only [List.head?_cons, Option.some_inj] at hc
            subst hc; decide)]
      simp only [Version.parseTail, if_true]
      rw [takeWhile_append_all (intercalate_ne_plus hpre),
        takeWhile_eq_nil_of_head (by
          intro c hc
          simp only [List.head?_cons, Option.some_inj] at hc
          subst hc; decide),
        List.append_nil,
        dropWhile_append_all (intercalate_ne_plus hpre),
        dropWhile_eq_self_of_head (by
          intro c hc
          simp only [List.head?_cons, Option.some_inj] at hc
          subst hc; decide),
        parseDotSep_intercalate (by simp) hpre, if_neg (by decide)]
      simp only [parseDotSep_intercalate (by simp) hbuild]

/-- Every version the tail reader produces has only valid identifiers. -/
theorem parseTail_valid {M m p : Nat} {tail : List Char} {v : Version}
    (h : Version.parseTail M m p tail = some v) : v.valid = true := by
  cases tail with
  | nil =>
    simp only [Version.parseTail, Option.some_inj] at h
    subst h
    rfl
  | cons c rest =>
    simp only [Version.parseTail] at h
    split_ifs at h with h1 h2
    · cases hb : parseDotSep rest with
      | none => rw [hb] at h; exact absurd h (by simp)
      | some build =>
        rw [hb] at h
        simp only [Option.some_inj] at h
        subst h
        simp only [Version.valid, Bool.and_eq_true, List.all_eq_true]
        exact ⟨by simp, (parseDotSep_valid hb).2⟩
    · cases hp : parseDotSep (rest.takeWhile (· ≠ '+')) with
      | none => rw [hp] at h; exact absurd h (by simp)
      | some pre =>
        rw [hp] at h
        cases hd : rest.dropWhile (· ≠ '+') with
        | nil =>
          rw [hd] at h
          simp only [Option.some_inj] at h
          subst h
          simp only [Version.valid, Bool.and_eq_true, List.all_eq_true]
          exact ⟨(parseDotSep_valid hp).2, by simp⟩
        | cons x bs =>
          rw [hd] at h
          cases hb : parseDotSep bs with
          | none => simp [hb] at h
          | some build =>
            simp only [hb, Option.some_inj] at h
            subst h
            simp only [Version.valid, Bool.and_eq_true, List.all_eq_true]
            exact ⟨(parseDotSep_valid hp).2, (parseDotSep_valid hb).2⟩

/-- Every version the character-level reader produces has only valid
identifiers. -/
theorem parseChars_valid {cs : List Char} {v : Version}
    (h : Version.parseChars cs = some v) : v.valid = true := by
  unfold Version.parseChars at h
  split at h
  · exact absurd h (by simp)
  · split at h
    · exact absurd h (by simp)
    · split at h
      · exact absurd h (by simp)
      · split at h
        · exact absurd h (by simp)
        · split at h
          · exact absurd h (by simp)
          · exact parseTail_valid h

/-- Version::parse is a left inverse of rendering on versions with valid
identifiers. -/
theorem Version.parse_render {v : Version} (h : v.valid = true) :
    Version.parse (Version.render v) = .ok v := by
  unfold Version.parse Version.render
  rw [show (String.mk v.chars).data = v.chars from rfl, parseChars_chars h]

/-- Every version Version::parse produces has only valid identifiers. -/
theorem Version.parse_valid {s : String} {v : Version}
    (h : Version.parse s = .ok v) : v.valid = true := by
  unfold Version.parse at h
  cases hp : Version.parseChars s.data with
  | none => rw [hp] at h; exact absurd h (by simp)
  | some w =>
    rw [hp] at h
    simp only [Except.ok.injEq] at h
    subst h
    exact parseChars_valid hp

/-! ## Laws of the precedence comparison -/

/-- natCmp is lt exactly on smaller numbers. -/
theorem natCmp_eq_lt {a b : Nat} : natCmp a b = .lt ↔ a < b := by
  unfold natCmp
  split_ifs with h1 h2 <;> simp_all

/-- natCmp is eq exactly on equal numbers. -/
theorem natCmp_eq_eq {a b : Nat} : natCmp a b = .eq ↔ a = b := by
  unfold natCmp
  split_ifs with h1 h2 <;> simp_all
  omega

/-- natCmp is gt exactly on larger numbers. -/
theorem natCmp_eq_gt {a b : Nat} : natCmp a b = .gt ↔ b < a := by
  unfold natCmp
  split_ifs with h1 h2 <;> simp_all
  all_goals omega

/-- natCmp answers the reversed question with the swapped ordering. -/
theorem natCmp_swap (a b : Nat) : natCmp a b = (natCmp b a).swap := by
  unfold natCmp
  rcases Nat.lt_trichotomy a b with h | h | h
  · rw [if_pos h, if_neg (by omega), if_neg (by omega)]
    rfl
  · subst h
    rw [if_neg (by omega), if_pos rfl]
    rfl
  · rw [if_neg (by omega), if_neg (by omega), if_pos h]
    rfl

/-- charCmp is eq exactly on equal characters. -/
theorem charCmp_eq_eq {a b : Char} : charCmp a b = .eq ↔ a = b := by
  unfold charCmp
  rw [natCmp_eq_eq]
  constructor
  · intro h
    apply Char.ext
    apply UInt32.ext
    exact h
  · rintro rfl
    rfl

/-- charCmp answers the reversed question with the swapped ordering. -/
theorem charCmp_swap (a b : Char) : charCmp a b = (charCmp b a).swap :=
  natCmp_swap _ _

/-- charCmp is transitive in its lt answers. -/
theorem charCmp_lt_trans {a b c : Char} (h1 : charCmp a b = .lt)
    (h2 : charCmp b c = .lt) : charCmp a c = .lt := by
  unfold charCmp at *
  rw [natCmp_eq_lt] at *
  omega

/-- listCmp is eq exactly on equal lists, given the same for elements. -/
theorem listCmp_eq_eq {cmp : α → α → Ordering}
    (he : ∀ a b : α, cmp a b = .eq ↔ a = b) :
    ∀ {l₁ l₂ : List α}, listCmp cmp l₁ l₂ = .eq ↔ l₁ = l₂ := by
  intro l₁
  induction l₁ with
  | nil => intro l₂; cases l₂ <;> simp [listCmp]
  | cons x xs ih =>
    intro l₂
    cases l₂ with
    | nil => simp [listCmp]
    | cons y ys =>
      simp only [listCmp]
      cases hxy : cmp x y with
      | eq =>
        have hx : x = y := (he x y).mp hxy
        subst hx
        rw [ih]
        simp
      | lt =>
        constructor
        · intro h; exact absurd h (by simp)
        · intro h
          simp only [List.cons.injEq] at h
          rw [(he x y).mpr h.1] at hxy
          exact absurd hxy (by simp)
      | gt =>
        constructor
        · intro h; exact absurd h (by simp)
        · intro h
          simp only [List.cons.injEq] at h
          rw [(he x y).mpr h.1] at hxy
          exact absurd hxy (by simp)

/-- listCmp answers the reversed question with the swapped ordering. -/
theorem listCmp_swap {cmp : α → α → Ordering}
    (hs : ∀ a b : α, cmp a b = (cmp b a).swap) :
    ∀ (l₁ l₂ : List α), listCmp cmp l₁ l₂ = (listCmp cmp l₂ l₁).swap := by
  intro l₁
  induction l₁ with
  | nil => intro l₂; cases l₂ <;> rfl
  | cons x xs ih =>
    intro l₂
    cases l₂ with
    | nil => rfl
    | cons y ys =>
      simp only [listCmp]
      rw [hs x y]
      cases cmp y x <;> simp [Ordering.swap, ih ys]

/-- listCmp is transitive in its lt answers, given element transitivity
and element eq-extraction. -/
theorem listCmp_lt_trans {cmp : α → α → Ordering}
    (he : ∀ a b : α, cmp a b = .eq ↔ a = b)
    (ht : ∀ {a b c : α}, cmp a b = .lt → cmp b c = .lt → cmp a c = .lt) :
    ∀ {l₁ l₂ l₃ : List α}, listCmp cmp l₁ l₂ = .lt →
      listCmp cmp l₂ l₃ = .lt → listCmp cmp l₁ l₃ = .lt := by
  intro l₁
  induction l₁ with
  | nil =>
    intro l₂ l₃ h1 h2
    cases l₂ with
    | nil => exact h2
    | cons y ys =>
      cases l₃ with
      | nil => exact absurd h2 (by cases ys <;> simp [listCmp])
      | cons z zs => rfl
  | cons x xs ih =>
    intro l₂ l₃ h1 h2
    cases l₂ with
    | nil => exact absurd h1 (by simp [listCmp])
    | cons y ys =>
      cases l₃ with
      | nil => exact absurd h2 (by simp [listCmp])
      | cons z zs =>
        simp only [listCmp] at h1 h2 ⊢
        cases hxy : cmp x y with
        | gt => rw [hxy] at h1; exact absurd h1 (by simp)
        | lt =>
          cases hyz : cmp y z with
          | gt => rw [hyz] at h2; exact absurd h2 (by simp)
          | lt => rw [ht hxy hyz]
          | eq =>
            have : y = z := (he y z).mp hyz
            subst this
            rw [hxy]
        | eq =>
          have : x = y := (he x y).mp hxy
          subst this
          cases hyz : cmp x z with
          | gt => rw [hyz] at h2; exact absurd h2 (by simp)
          | lt => rfl
          | eq =>
            rw [hxy] at h1
            rw [hyz] at h2
            exact ih h1 h2

/-- Strings with the same character data are equal. -/
theorem string_data_inj {s t : String} (h : s.data = t.data) : s = t := by
  cases s
  cases t
  exact congrArg String.mk h

/-- identCmp is eq exactly on equal identifiers. -/
theorem identCmp_eq_eq {a b : Identifier} : identCmp a b = .eq ↔ a = b := by
  cases a with
  | numeric n =>
    cases b with
    | numeric n' => simp [identCmp, natCmp_eq_eq]
    | alphaNumeric t => simp [identCmp]
  | alphaNumeric s =>
    cases b with
    | numeric n' => simp [identCmp]
    | alphaNumeric t =>
      simp only [identCmp, Identifier.alphaNumeric.injEq]
      rw [listCmp_eq_eq (fun a b => charCmp_eq_eq)]
      constructor
      · exact string_data_inj
      · rintro rfl; rfl

/-- identCmp answers the reversed question with the swapped ordering. -/
theorem identCmp_swap (a b : Identifier) :
    identCmp a b = (identCmp b a).swap := by
  cases a <;> cases b <;> simp only [identCmp]
  · exact natCmp_swap _ _
  · rfl
  · rfl
  · exact listCmp_swap charCmp_swap _ _

/-- identCmp is transitive in its lt answers. -/
theorem identCmp_lt_trans {a b c : Identifier} (h1 : identCmp a b = .lt)
    (h2 : identCmp b c = .lt) : identCmp a c = .lt := by
  cases a with
  | numeric n =>
    cases b with
    | numeric m =>
      cases c with
      | numeric k =>
        simp only [identCmp, natCmp_eq_lt] at h1 h2 ⊢
        omega
      | alphaNumeric t => rfl
    | alphaNumeric t =>
      cases c with
      | numeric k => exact absurd h2 (by simp [identCmp])
      | alphaNumeric u => rfl
  | alphaNumeric s =>
    cases b with
    | numeric m => exact absurd h1 (by simp [identCmp])
    | alphaNumeric t =>
      cases c with
      | numeric k => exact absurd h2 (by simp [identCmp])
      | alphaNumeric u =>
        simp only [identCmp] at h1 h2 ⊢
        exact listCmp_lt_trans (fun a b => charCmp_eq_eq)
          (fun hab hbc => charCmp_lt_trans hab hbc) h1 h2

/-- preCmp is eq exactly on equal pre-release lists. -/
theorem preCmp_eq_eq {a b : List Identifier} : preCmp a b = .eq ↔ a = b := by
  cases a with
  | nil => cases b <;> simp [preCmp]
  | cons x xs =>
    cases b with
    | nil => simp [preCmp]
    | cons y ys =>
      show listCmp identCmp (x :: xs) (y :: ys) = .eq ↔ _
      rw [listCmp_eq_eq (fun a b => identCmp_eq_eq)]

/-- preCmp answers the reversed question with the swapped ordering. -/
theorem preCmp_swap (a b : List Identifier) :
    preCmp a b = (preCmp b a).swap := by
  cases a with
  | nil => cases b <;> rfl
  | cons x xs =>
    cases b with
    | nil => rfl
    | cons y ys =>
      show listCmp identCmp (x :: xs) (y :: ys) =
        (listCmp identCmp (y :: ys) (x :: xs)).swap
      exact listCmp_swap identCmp_swap _ _

/-- preCmp is transitive in its lt answers. -/
theorem preCmp_lt_trans {a b c : List Identifier} (h1 : preCmp a b = .lt)
    (h2 : preCmp b c = .lt) : preCmp a c = .lt := by
  cases a with
  | nil =>
    exact absurd h1 (by cases b <;> simp [preCmp])
  | cons x xs =>
    cases b with
    | nil => exact absurd h2 (by cases c <;> simp [preCmp])
    | cons y ys =>
      cases c with
      | nil => rfl
      | cons z zs =>
        show listCmp identCmp (x :: xs) (z :: zs) = .lt
        exact listCmp_lt_trans (fun a b => identCmp_eq_eq)
          (fun hab hbc => identCmp_lt_trans hab hbc) h1 h2

/-- Version precedence is eq exactly when major, minor, patch and
pre-release agree (build metadata is ignored, as in semver 0.9). -/
theorem vcmp_eq_eq {a b : Version} : Version.cmp a b = .eq ↔
    a.major = b.major ∧ a.minor = b.minor ∧ a.patch = b.patch ∧
      a.pre = b.pre := by
  unfold Version.cmp
  rw [Ordering.then_eq_eq, Ordering.then_eq_eq, Ordering.then_eq_eq,
    natCmp_eq_eq, natCmp_eq_eq, natCmp_eq_eq, preCmp_eq_eq]

/-- Version precedence is reflexive. -/
theorem vcmp_refl (a : Version) : Version.cmp a a = .eq := by
  rw [vcmp_eq_eq]
  exact ⟨rfl, rfl, rfl, rfl⟩

/-- Version precedence answers the reversed question with the swapped
ordering. -/
theorem vcmp_swap (a b : Version) :
    Version.cmp a b = (Version.cmp b a).swap := by
  unfold Version.cmp
  rw [Ordering.swap_then, Ordering.swap_then, Ordering.swap_then,
    ← natCmp_swap, ← natCmp_swap, ← natCmp_swap, ← preCmp_swap]

/-- Version precedence is lt exactly on the lexicographic condition over
major, minor, patch and the pre-release rule. -/
theorem vcmp_eq_lt {a b : Version} : Version.cmp a b = .lt ↔
    (a.major < b.major ∨ (a.major = b.major ∧ (a.minor < b.minor ∨
      (a.minor = b.minor ∧ (a.patch < b.patch ∨ (a.patch = b.patch ∧
        preCmp a.pre b.pre = .lt)))))) := by
  unfold Version.cmp
  rw [Ordering.then_eq_lt, Ordering.then_eq_lt, Ordering.then_eq_lt,
    natCmp_eq_lt, natCmp_eq_eq, natCmp_eq_lt, natCmp_eq_eq,
    natCmp_eq_lt, natCmp_eq_eq]

/-- Version precedence is transitive in its lt answers. -/
theorem vcmp_lt_trans {a b c : Version} (h1 : Version.cmp a b = .lt)
    (h2 : Version.cmp b c = .lt) : Version.cmp a c = .lt := by
  rw [vcmp_eq_lt] at h1 h2 ⊢
  rcases h1 with h1 | ⟨e1, h1⟩
  · rcases h2 with h2 | ⟨e2, h2⟩
    · exact Or.inl (by omega)
    · exact Or.inl (by omega)
  · rcases h2 with h2 | ⟨e2, h2⟩
    · exact Or.inl (by omega)
    · refine Or.inr ⟨by omega, ?_⟩
      rcases h1 with h1 | ⟨f1, h1⟩
      · rcases h2 with h2 | ⟨f2, h2⟩
        · exact Or.inl (by omega)
        · exact Or.inl (by omega)
      · rcases h2 with h2 | ⟨f2, h2⟩
        · exact Or.inl (by omega)
        · refine Or.inr ⟨by omega, ?_⟩
          rcases h1 with h1 | ⟨g1, h1⟩
          · rcases h2 with h2 | ⟨g2, h2⟩
            · exact Or.inl (by omega)
            · exact Or.inl (by omega)
          · rcases h2 with h2 | ⟨g2, h2⟩
            · exact Or.inl (by omega)
            · exact Or.inr ⟨by omega, preCmp_lt_trans h1 h2⟩

/-- Versions comparing equal compare identically against any third
version. -/
theorem vcmp_congr_left {a b c : Version} (h : Version.cmp a b = .eq) :
    Version.cmp a c = Version.cmp b c := by
  obtain ⟨e1, e2, e3, e4⟩ := vcmp_eq_eq.mp h
  unfold Version.cmp
  rw [e1, e2, e3, e4]

/-- Version precedence is gt exactly when the reversed comparison is
lt. -/
theorem vcmp_eq_gt {a b : Version} :
    Version.cmp a b = .gt ↔ Version.cmp b a = .lt := by
  rw [vcmp_swap a b]
  cases Version.cmp b a <;> simp [Ordering.swap]

/-! ## Laws of the ordered-set model -/

/-- Unfolding equation of insertion when the new version orders below
the head. -/
theorem btInsert_cons_lt {v w : Version} {ws : List Version}
    (h : Version.cmp v w = .lt) : btInsert v (w :: ws) = v :: w :: ws := by
  unfold btInsert
  rw [h]

/-- Unfolding equation of insertion when the new version compares equal
to the head: the present entry is kept. -/
theorem btInsert_cons_eq {v w : Version} {ws : List Version}
    (h : Version.cmp v w = .eq) : btInsert v (w :: ws) = w :: ws := by
  unfold btInsert
  rw [h]

/-- Unfolding equation of insertion when the new version orders above
the head. -/
theorem btInsert_cons_gt {v w : Version} {ws : List Version}
    (h : Version.cmp v w = .gt) :
    btInsert v (w :: ws) = w :: btInsert v ws := by
  conv_lhs => unfold btInsert
  rw [h]

/-- Every member of an insertion is the inserted version or an original
member. -/
theorem mem_btInsert {x v : Version} :
    ∀ {l : List Version}, x ∈ btInsert v l → x = v ∨ x ∈ l := by
  intro l
  induction l with
  | nil =>
    intro h
    simp only [btInsert, List.mem_singleton] at h
    exact Or.inl h
  | cons w ws ih =>
    intro h
    cases hc : Version.cmp v w with
    | lt =>
      rw [btInsert_cons_lt hc] at h
      exact List.mem_cons.mp h
    | eq =>
      rw [btInsert_cons_eq hc] at h
      exact Or.inr h
    | gt =>
      rw [btInsert_cons_gt hc] at h
      rcases List.mem_cons.mp h with rfl | h
      · exact Or.inr (by simp)
      · rcases ih h with rfl | h
        · exact Or.inl rfl
        · exact Or.inr (by simp [h])

/-- Insertion preserves strict ascending sortedness. -/
theorem pairwise_btInsert {v : Version} :
    ∀ {l : List Version},
      List.Pairwise (fun a b => Version.cmp a b = .lt) l →
      List.Pairwise (fun a b => Version.cmp a b = .lt) (btInsert v l) := by
  intro l
  induction l with
  | nil =>
    intro _
    simp [btInsert]
  | cons w ws ih =>
    intro h
    rw [List.pairwise_cons] at h
    obtain ⟨hw, hws⟩ := h
    cases hc : Version.cmp v w with
    | lt =>
      rw [btInsert_cons_lt hc, List.pairwise_cons]
      refine ⟨?_, List.pairwise_cons.mpr ⟨hw, hws⟩⟩
      intro u hu
      rcases List.mem_cons.mp hu with rfl | hu
      · exact hc
      · exact vcmp_lt_trans hc (hw u hu)
    | eq =>
      rw [btInsert_cons_eq hc]
      exact List.pairwise_cons.mpr ⟨hw, hws⟩
    | gt =>
      rw [btInsert_cons_gt hc, List.pairwise_cons]
      refine ⟨?_, ih hws⟩
      intro u hu
      rcases mem_btInsert hu with rfl | hu
      · exact vcmp_eq_gt.mp hc
      · exact hw u hu

/-- Inserting a version above everything in the list appends it. -/
theorem btInsert_all_lt {v : Version} :
    ∀ {l : List Version}, (∀ w ∈ l, Version.cmp w v = .lt) →
      btInsert v l = l ++ [v] := by
  intro l
  induction l with
  | nil => intro _; rfl
  | cons w ws ih =>
    intro h
    have hw : Version.cmp v w = .gt :=
      vcmp_eq_gt.mpr (h w (by simp))
    rw [btInsert_cons_gt hw, ih (fun u hu => h u (by simp [hu]))]
    rfl

/-- Folding insertion over a list whose concatenation with the
accumulator is sorted just appends the list. -/
theorem foldl_btInsert_sorted :
    ∀ {l s : List Version},
      List.Pairwise (fun a b => Version.cmp a b = .lt) (s ++ l) →
      l.foldl (fun acc v => btInsert v acc) s = s ++ l := by
  intro l
  induction l with
  | nil =>
    intro s _
    simp
  | cons x xs ih =>
    intro s h
    rw [List.foldl_cons]
    have hx : ∀ w ∈ s, Version.cmp w x = .lt := by
      intro w hw
      exact (List.pairwise_append.mp h).2.2 w hw x (by simp)
    rw [btInsert_all_lt hx]
    have hassoc : s ++ [x] ++ xs = s ++ x :: xs := by simp
    rw [ih (by rw [hassoc]; exact h), hassoc]

/-- The set built from an already sorted, deduplicated list is that
list. -/
theorem btFromList_sorted_id {l : List Version}
    (h : List.Pairwise (fun a b => Version.cmp a b = .lt) l) :
    btFromList l = l := by
  unfold btFromList
  exact foldl_btInsert_sorted (by simpa using h)

/-- The set built from any list is sorted strictly ascending. -/
theorem btFromList_pairwise (l : List Version) :
    List.Pairwise (fun a b => Version.cmp a b = .lt) (btFromList l) := by
  unfold btFromList
  suffices h : ∀ (l s : List Version),
      List.Pairwise (fun a b => Version.cmp a b = .lt) s →
      List.Pairwise (fun a b => Version.cmp a b = .lt)
        (l.foldl (fun acc v => btInsert v acc) s) from
    h l [] (by simp)
  intro l
  induction l with
  | nil => intro s hs; simpa using hs
  | cons x xs ih =>
    intro s hs
    rw [List.foldl_cons]
    exact ih _ (pairwise_btInsert hs)

/-- Every member of the built set is a member of the source list. -/
theorem mem_btFromList {x : Version} {l : List Version}
    (h : x ∈ btFromList l) : x ∈ l := by
  unfold btFromList at h
  suffices hgen : ∀ (l s : List Version),
      x ∈ l.foldl (fun acc v => btInsert v acc) s → x ∈ s ∨ x ∈ l by
    rcases hgen l [] h with hx | hx
    · exact absurd hx (by simp)
    · exact hx
  intro l
  induction l with
  | nil =>
    intro s h
    exact Or.inl (by simpa using h)
  | cons y ys ih =>
    intro s h
    rw [List.foldl_cons] at h
    rcases ih _ h with hx | hx
    · rcases mem_btInsert hx with rfl | hx
      · exact Or.inr (by simp)
      · exact Or.inl hx
    · exact Or.inr (by simp [hx])

/-- A version has a precedence-equal representative in an insertion
exactly when it is precedence-equal to the inserted version or already
had one. -/
theorem keyMem_btInsert {x v : Version} :
    ∀ {l : List Version},
      (∃ w ∈ btInsert v l, Version.cmp x w = .eq) ↔
        (Version.cmp x v = .eq ∨ ∃ w ∈ l, Version.cmp x w = .eq) := by
  intro l
  induction l with
  | nil => simp [btInsert]
  | cons w ws ih =>
    cases hc : Version.cmp v w with
    | lt =>
      rw [btInsert_cons_lt hc]
      constructor
      · rintro ⟨u, hu, hx⟩
        rcases List.mem_cons.mp hu with rfl | hu
        · exact Or.inl hx
        · exact Or.inr ⟨u, hu, hx⟩
      · rintro (hx | ⟨u, hu, hx⟩)
        · exact ⟨v, by simp, hx⟩
        · exact ⟨u, by simp [hu], hx⟩
    | eq =>
      rw [btInsert_cons_eq hc]
      constructor
      · rintro ⟨u, hu, hx⟩
        exact Or.inr ⟨u, hu, hx⟩
      · rintro (hx | ⟨u, hu, hx⟩)
        · refine ⟨w, by simp, ?_⟩
          rw [vcmp_congr_left hx]
          exact hc
        · exact ⟨u, hu, hx⟩
    | gt =>
      rw [btInsert_cons_gt hc]
      constructor
      · rintro ⟨u, hu, hx⟩
        rcases List.mem_cons.mp hu with rfl | hu
        · exact Or.inr ⟨u, by simp, hx⟩
        · rcases ih.mp ⟨u, hu, hx⟩ with h | ⟨u', hu', hx'⟩
          · exact Or.inl h
          · exact Or.inr ⟨u', by simp [hu'], hx'⟩
      · rintro (hx | ⟨u, hu, hx⟩)
        · obtain ⟨u', hu', hx'⟩ := ih.mpr (Or.inl hx)
          exact ⟨u', by simp [hu'], hx'⟩
        · rcases List.mem_cons.mp hu with rfl | hu
          · exact ⟨u, by simp, hx⟩
          · obtain ⟨u', hu', hx'⟩ := ih.mpr (Or.inr ⟨u, hu, hx⟩)
            exact ⟨u', by simp [hu'], hx'⟩

/-- A version has a precedence-equal representative in the built set
exactly when it has one in the source list. -/
theorem keyMem_btFromList {x : Version} {l : List Version} :
    (∃ w ∈ btFromList l, Version.cmp x w = .eq) ↔
      (∃ w ∈ l, Version.cmp x w = .eq) := by
  unfold btFromList
  suffices hgen : ∀ (l s : List Version),
      ((∃ w ∈ l.foldl (fun acc v => btInsert v acc) s,
          Version.cmp x w = .eq) ↔
        ((∃ w ∈ s, Version.cmp x w = .eq) ∨
          (∃ w ∈ l, Version.cmp x w = .eq))) by
    rw [hgen]
    simp
  intro l
  induction l with
  | nil =>
    intro s
    simp
  | cons y ys ih =>
    intro s
    rw [List.foldl_cons, ih, keyMem_btInsert]
    constructor
    · rintro ((hy | hs) | hys)
      · exact Or.inr ⟨y, by simp, hy⟩
      · exact Or.inl hs
      · obtain ⟨u, hu, hx⟩ := hys
        exact Or.inr ⟨u, by simp [hu], hx⟩
    · rintro (hs | ⟨u, hu, hx⟩)
      · exact Or.inl (Or.inr hs)
      · rcases List.mem_cons.mp hu with rfl | hu
        · exact Or.inl (Or.inl hx)
        · exact Or.inr ⟨u, hu, hx⟩

/-! ## Catalog-level lemmas -/

/-- mapM over renderings that each parse back succeeds with the original
list. -/
theorem exceptMapM_ok_of_forall {α β ε : Type} (f : α → Except ε β)
    (g : β → α) (l : List β) (h : ∀ b ∈ l, f (g b) = .ok b) :
    (l.map g).mapM f = .ok l := by
  induction l with
  | nil => rfl
  | cons x xs ih =>
    rw [List.map_cons, List.mapM_cons, h x (by simp),
      ih (fun b hb => h b (by simp [hb]))]
    rfl

/-- Every element a successful Except-valued mapM produces comes from
some input element. -/
theorem exceptMapM_ok_forall {α β ε : Type} {f : α → Except ε β} :
    ∀ {l : List α} {out : List β}, l.mapM f = .ok out →
      ∀ b ∈ out, ∃ a ∈ l, f a = .ok b := by
  intro l
  induction l with
  | nil =>
    intro out h
    have h : ([] : List β) = out := Except.ok.inj h
    simp [← h]
  | cons x xs ih =>
    intro out h
    rw [List.mapM_cons] at h
    cases hx : f x with
    | error e => rw [hx] at h; exact Except.noConfusion h
    | ok b0 =>
      rw [hx] at h
      cases hxs : xs.mapM f with
      | error e => rw [hxs] at h; exact Except.noConfusion h
      | ok rest =>
        rw [hxs] at h
        have h : b0 :: rest = out := Except.ok.inj h
        intro b hb
        rw [← h] at hb
        rcases List.mem_cons.mp hb with rfl | hb
        · exact ⟨x, by simp, hx⟩
        · obtain ⟨a, ha, hfa⟩ := ih hxs b hb
          exact ⟨a, by simp [ha], hfa⟩

/-- Every input of a successful Except-valued mapM parses to some member
of the output. -/
theorem exceptMapM_ok_forall_input {α β ε : Type} {f : α → Except ε β} :
    ∀ {l : List α} {out : List β}, l.mapM f = .ok out →
      ∀ a ∈ l, ∃ b ∈ out, f a = .ok b := by
  intro l
  induction l with
  | nil =>
    intro out _ a ha
    exact absurd ha (by simp)
  | cons x xs ih =>
    intro out h a ha
    rw [List.mapM_cons] at h
    cases hx : f x with
    | error e => rw [hx] at h; exact Except.noConfusion h
    | ok b0 =>
      rw [hx] at h
      cases hxs : xs.mapM f with
      | error e => rw [hxs] at h; exact Except.noConfusion h
      | ok rest =>
        rw [hxs] at h
        have h : b0 :: rest = out := Except.ok.inj h
        rcases List.mem_cons.mp ha with rfl | ha
        · exact ⟨b0, by simp [← h], hx⟩
        · obtain ⟨b, hb, hfb⟩ := ih hxs a ha
          exact ⟨b, by simp [← h, hb], hfb⟩

/-- If an input fails, the whole Except-valued mapM fails, with the
error of one of the failing inputs. -/
theorem exceptMapM_error {α β ε : Type} {f : α → Except ε β} :
    ∀ {l : List α}, (∃ a ∈ l, ∃ e, f a = .error e) →
      ∃ e, l.mapM f = .error e ∧ ∃ a ∈ l, f a = .error e := by
  intro l
  induction l with
  | nil =>
    intro h
    simp at h
  | cons x xs ih =>
    intro h
    rw [List.mapM_cons]
    cases hx : f x with
    | error e =>
      exact ⟨e, rfl, ⟨x, by simp, hx⟩⟩
    | ok b =>
      obtain ⟨a, ha, e, hae⟩ := h
      rcases List.mem_cons.mp ha with rfl | ha
      · rw [hx] at hae
        exact absurd hae (by simp)
      · obtain ⟨e', he', a', ha', hfa'⟩ := ih ⟨a, ha, e, hae⟩
        refine ⟨e', ?_, ⟨a', by simp [ha'], hfa'⟩⟩
        rw [he']
        rfl

/-- Inversion of a successful catalog parse: the version set comes from
a fully successful mapM, and the current version is either absent or one
successful parse. -/
theorem into_node_catalog_ok {s : serial.NodeCatalog}
    {c : catalog.NodeCatalog} (h : s.into_node_catalog = .ok c) :
    (∃ vs, s.versions.mapM Version.parse = .ok vs ∧
      c.versions = btFromList vs) ∧
    ((s.current = none ∧ c.current = none) ∨
      (∃ str v, s.current = some str ∧ Version.parse str = .ok v ∧
        c.current = some v)) := by
  unfold serial.NodeCatalog.into_node_catalog at h
  cases hcur : s.current with
  | none =>
    simp only [hcur] at h
    cases hm : s.versions.mapM Version.parse with
    | error e =>
      simp only [hm] at h
      exact Except.noConfusion h
    | ok vs =>
      simp only [hm] at h
      have h := Except.ok.inj h
      exact ⟨⟨vs, rfl, by rw [← h]⟩, Or.inl ⟨rfl, by rw [← h]⟩⟩
  | some str =>
    simp only [hcur] at h
    cases hp : Version.parse str with
    | error e =>
      simp only [hp, Except.map] at h
      exact Except.noConfusion h
    | ok v =>
      simp only [hp, Except.map] at h
      cases hm : s.versions.mapM Version.parse with
      | error e =>
        simp only [hm] at h
        exact Except.noConfusion h
      | ok vs =>
        simp only [hm] at h
        have h := Except.ok.inj h
        exact ⟨⟨vs, rfl, by rw [← h]⟩,
          Or.inr ⟨str, v, rfl, hp, by rw [← h]⟩⟩

/-- Serializing a well-formed in-memory node catalog (current and all
set members valid, set strictly ascending) and parsing the result gives
back exactly the catalog. -/
theorem to_serial_into_of_wf (c : catalog.NodeCatalog)
    (hcur : ∀ v, c.current = some v → v.valid = true)
    (hval : ∀ v ∈ c.versions, v.valid = true)
    (hsort : List.Pairwise (fun a b => Version.cmp a b = .lt) c.versions) :
    c.to_serial.into_node_catalog = .ok c := by
  obtain ⟨cur, vers⟩ := c
  have hm : (vers.map Version.render).mapM Version.parse = .ok vers :=
    exceptMapM_ok_of_forall _ _ _
      (fun v hv => Version.parse_render (hval v hv))
  cases cur with
  | none =>
    simp only [catalog.NodeCatalog.to_serial,
      serial.NodeCatalog.into_node_catalog, Option.map_none', hm,
      btFromList_sorted_id hsort]
  | some v =>
    have hv : Version.parse (Version.render v) = .ok v :=
      Version.parse_render (hcur v rfl)
    simp only [catalog.NodeCatalog.to_serial,
      serial.NodeCatalog.into_node_catalog, Option.map_some', hv,
      Except.map, hm, btFromList_sorted_id hsort]

/-- The catalog-level wrapper of the serialize-then-parse identity. -/
theorem catalog_to_serial_into_of_wf (c : catalog.Catalog)
    (hcur : ∀ v, c.node.current = some v → v.valid = true)
    (hval : ∀ v ∈ c.node.versions, v.valid = true)
    (hsort : List.Pairwise (fun a b => Version.cmp a b = .lt)
      c.node.versions) :
    c.to_serial.into_catalog = .ok c := by
  obtain ⟨node⟩ := c
  simp only [catalog.Catalog.to_serial, serial.Catalog.into_catalog,
    to_serial_into_of_wf node hcur hval hsort]

/-- C2: if any version string in the versions list or the current field
fails to parse as a semantic version, into_node_catalog returns an
underlying parse error — the error of one of the failing strings — and
produces no catalog value (all-or-nothing parsing). -/
theorem c2_parse_all_or_nothing (s : serial.NodeCatalog)
    (h : (∃ cs, s.current = some cs ∧ ∃ e, Version.parse cs = .error e) ∨
         (∃ str ∈ s.versions, ∃ e, Version.parse str = .error e)) :
    ∃ e, s.into_node_catalog = .error e ∧
      ((∃ cs, s.current = some cs ∧ Version.parse cs = .error e) ∨
       (∃ str ∈ s.versions, Version.parse str = .error e)) := by
  unfold serial.NodeCatalog.into_node_catalog
  cases hcur : s.current with
  | some cs =>
    cases hp : Version.parse cs with
    | error e =>
      refine ⟨e, ?_, Or.inl ⟨cs, rfl, hp⟩⟩
      simp only [hp, Except.map]
    | ok v =>
      have hv : ∃ str ∈ s.versions, ∃ e, Version.parse str = .error e := by
        rcases h with ⟨cs', hcs', e, he⟩ | hv
        · rw [hcur] at hcs'
          injection hcs' with hh
          subst hh
          rw [hp] at he
          exact absurd he (by simp)
        · exact hv
      obtain ⟨e, hm, str, hstr, hfa⟩ := exceptMapM_error hv
      refine ⟨e, ?_, Or.inr ⟨str, hstr, hfa⟩⟩
      simp only [hp, Except.map, hm]
  | none =>
    have hv : ∃ str ∈ s.versions, ∃ e, Version.parse str = .error e := by
      rcases h with ⟨cs, hcs, _⟩ | hv
      · rw [hcur] at hcs
        exact absurd hcs (by simp)
      · exact hv
    obtain ⟨e, hm, str, hstr, hfa⟩ := exceptMapM_error hv
    exact ⟨e, by simp only [hm], Or.inr ⟨str, hstr, hfa⟩⟩

/-- Witness for C2: a catalog whose current field is malformed fails to
parse with that string's parse error. -/
theorem c2_parse_all_or_nothing_witness :
    ∃ e, serial.NodeCatalog.into_node_catalog ⟨some "bogus", []⟩ =
        .error e ∧
      ((∃ cs, (some "bogus" : Option String) = some cs ∧
          Version.parse cs = .error e) ∨
       (∃ str ∈ ([] : List String), Version.parse str = .error e)) :=
  c2_parse_all_or_nothing ⟨some "bogus", []⟩
    (Or.inl ⟨"bogus", rfl, ⟨.parseError "bogus", rfl⟩⟩)

/-- C5: a successfully parsed catalog is a fixed point of one
serialize-then-parse round trip. -/
theorem c5_roundtrip_fixed_point (x : serial.Catalog) (c : catalog.Catalog)
    (h : x.into_catalog = .ok c) : c.to_serial.into_catalog = .ok c := by
  unfold serial.Catalog.into_catalog at h
  cases hn : x.node.into_node_catalog with
  | error e =>
    rw [hn] at h
    exact Except.noConfusion h
  | ok node =>
    rw [hn] at h
    have hc : { node := node } = c := Except.ok.inj h
    subst hc
    obtain ⟨⟨vs, hm, hvers⟩, hcur⟩ := into_node_catalog_ok hn
    apply catalog_to_serial_into_of_wf
    · intro v hv
      rcases hcur with ⟨_, hnone⟩ | ⟨str, w, _, hpw, hsome⟩
      · rw [hnone] at hv
        exact Option.noConfusion hv
      · rw [hsome] at hv
        injection hv with hh
        subst hh
        exact Version.parse_valid hpw
    · intro v hv
      rw [hvers] at hv
      obtain ⟨a, _, hfa⟩ := exceptMapM_ok_forall hm v (mem_btFromList hv)
      exact Version.parse_valid hfa
    · rw [hvers]
      exact btFromList_pairwise vs

/-- Witness for C5: a concrete catalog with an unsorted, duplicated
versions list parses and survives the round trip. -/
theorem c5_roundtrip_fixed_point_witness :
    (catalog.Catalog.to_serial
        ⟨⟨some ⟨1, 0, 0, [], []⟩,
          [⟨1, 0, 0, [], []⟩, ⟨2, 0, 0, [], []⟩]⟩⟩).into_catalog =
      .ok ⟨⟨some ⟨1, 0, 0, [], []⟩,
        [⟨1, 0, 0, [], []⟩, ⟨2, 0, 0, [], []⟩]⟩⟩ :=
  c5_roundtrip_fixed_point ⟨⟨some "1.0.0", ["2.0.0", "1.0.0", "2.0.0"]⟩⟩
    ⟨⟨some ⟨1, 0, 0, [], []⟩,
      [⟨1, 0, 0, [], []⟩, ⟨2, 0, 0, [], []⟩]⟩⟩ (by rfl)

/-- C10: serialization is an exact right inverse of parsing on every
in-memory catalog whose versions are parsed values (valid identifiers)
held in the set's strictly ascending order. -/
theorem c10_serialize_right_inverse (c : catalog.Catalog)
    (hcur : ∀ v, c.node.current = some v → v.valid = true)
    (hval : ∀ v ∈ c.node.versions, v.valid = true)
    (hsort : List.Pairwise (fun a b => Version.cmp a b = .lt)
      c.node.versions) :
    c.to_serial.into_catalog = .ok c :=
  catalog_to_serial_into_of_wf c hcur hval hsort

/-- Witness for C10: a concrete two-version catalog with a pre-release
current version round trips exactly. -/
theorem c10_serialize_right_inverse_witness :
    (catalog.Catalog.to_serial
        ⟨⟨some ⟨2, 0, 0, [.alphaNumeric "rc", .numeric 1], []⟩,
          [⟨1, 0, 0, [], []⟩,
           ⟨2, 0, 0, [.alphaNumeric "rc", .numeric 1], []⟩]⟩⟩).into_catalog =
      .ok ⟨⟨some ⟨2, 0, 0, [.alphaNumeric "rc", .numeric 1], []⟩,
        [⟨1, 0, 0, [], []⟩,
         ⟨2, 0, 0, [.alphaNumeric "rc", .numeric 1], []⟩]⟩⟩ :=
  c10_serialize_right_inverse
    ⟨⟨some ⟨2, 0, 0, [.alphaNumeric "rc", .numeric 1], []⟩,
      [⟨1, 0, 0, [], []⟩,
       ⟨2, 0, 0, [.alphaNumeric "rc", .numeric 1], []⟩]⟩⟩
    (by intro v hv; injection hv with hh; rw [← hh]; decide)
    (by
      intro v hv
      rcases List.mem_cons.mp hv with rfl | hv
      · decide
      · rcases List.mem_cons.mp hv with rfl | hv
        · decide
        · exact absurd hv (by simp))
    (by
      refine List.pairwise_cons.mpr ⟨?_, ?_⟩
      · intro b hb
        rcases List.mem_cons.mp hb with rfl | hb
        · decide
        · exact absurd hb (by simp)
      · exact List.pairwise_cons.mpr ⟨by simp, List.Pairwise.nil⟩)

/-- C6: parsing a list of valid version strings (with the current field
absent) yields a version set that is strictly ascending by precedence,
free of duplicates, containing a representative of every input version
and nothing else; serializing it is total and is the plain rendering map
over that ascending list. -/
theorem c6_dedup_sorted_versions (strs : List String)
    (c : catalog.NodeCatalog)
    (h : serial.NodeCatalog.into_node_catalog ⟨none, strs⟩ = .ok c) :
    c.to_serial.versions = c.versions.map Version.render ∧
    List.Pairwise (fun a b => Version.cmp a b = .lt) c.versions ∧
    c.versions.Nodup ∧
    (∀ str v, str ∈ strs → Version.parse str = .ok v →
      ∃ w ∈ c.versions, Version.cmp v w = .eq) ∧
    (∀ w ∈ c.versions, ∃ str ∈ strs, Version.parse str = .ok w) := by
  obtain ⟨⟨vs, hm, hvers⟩, _⟩ := into_node_catalog_ok h
  have hm' : strs.mapM Version.parse = .ok vs := hm
  refine ⟨rfl, ?_, ?_, ?_, ?_⟩
  · rw [hvers]
    exact btFromList_pairwise vs
  · rw [hvers]
    refine List.Pairwise.imp ?_ (btFromList_pairwise vs)
    intro a b hab heq
    subst heq
    rw [vcmp_refl] at hab
    exact absurd hab (by simp)
  · intro str v hstr hpv
    obtain ⟨b, hb, hfb⟩ := exceptMapM_ok_forall_input hm' str hstr
    rw [hpv] at hfb
    have hbv : v = b := Except.ok.inj hfb
    subst hbv
    rw [hvers]
    exact keyMem_btFromList.mpr ⟨v, hb, vcmp_refl v⟩
  · intro w hw
    rw [hvers] at hw
    exact exceptMapM_ok_forall hm' w (mem_btFromList hw)

/-- Witness for C6: a duplicated, unsorted input list of valid version
strings. -/
theorem c6_dedup_sorted_versions_witness :
    (catalog.NodeCatalog.to_serial
        ⟨none, [⟨0, 5, 0, [], []⟩, ⟨1, 0, 0, [], []⟩]⟩).versions =
      (catalog.NodeCatalog.mk none
        [⟨0, 5, 0, [], []⟩, ⟨1, 0, 0, [], []⟩]).versions.map
          Version.render ∧
    List.Pairwise (fun a b => Version.cmp a b = .lt)
      (catalog.NodeCatalog.mk none
        [⟨0, 5, 0, [], []⟩, ⟨1, 0, 0, [], []⟩]).versions ∧
    (catalog.NodeCatalog.mk none
      [⟨0, 5, 0, [], []⟩, ⟨1, 0, 0, [], []⟩]).versions.Nodup ∧
    (∀ str v, str ∈ ["1.0.0", "1.0.0", "0.5.0"] →
      Version.parse str = .ok v →
      ∃ w ∈ (catalog.NodeCatalog.mk none
        [⟨0, 5, 0, [], []⟩, ⟨1, 0, 0, [], []⟩]).versions,
        Version.cmp v w = .eq) ∧
    (∀ w ∈ (catalog.NodeCatalog.mk none
        [⟨0, 5, 0, [], []⟩, ⟨1, 0, 0, [], []⟩]).versions,
      ∃ str ∈ ["1.0.0", "1.0.0", "0.5.0"],
        Version.parse str = .ok w) :=
  c6_dedup_sorted_versions ["1.0.0", "1.0.0", "0.5.0"]
    ⟨none, [⟨0, 5, 0, [], []⟩, ⟨1, 0, 0, [], []⟩]⟩ (by rfl)
